import Mathlib

/-
Verification of the geometry-normalization, text-anchor extraction, endpoint
resolution, ignore-list loading and batch-execution logic of the ocr-runner
program (Go sources: vision-api.go, document-ai.go, image-ocr.go and the
unnamed alternate-mode file).  Machine integers of the source (int32 vertex
coordinates, int64 text-anchor offsets) are modelled as Int with explicit
range hypotheses where the value range matters; strings are modelled as
List Char; fallible operations return Option or Except.
-/

/-- A polygon vertex as in visionpb.Vertex / documentaipb.Vertex
(fields X, Y of type int32, modelled as Int). -/
structure Vertex where
  x : Int
  y : Int
deriving DecidableEq, Repr

/-- image.Rectangle flattened to its four coordinates
(Min.X, Min.Y, Max.X, Max.Y). -/
structure Rectangle where
  minX : Int
  minY : Int
  maxX : Int
  maxY : Int
deriving DecidableEq, Repr

/-- i32.Maximal from github.com/adam-lavrik/go-imath (math.MaxInt32). -/
def i32Maximal : Int := 2147483647

/-- i32.Minimal from github.com/adam-lavrik/go-imath (math.MinInt32). -/
def i32Minimal : Int := -2147483648

/-- GetBoundingBox from the unnamed vision file (identical body to
GetLayoutBoundingBox in document-ai.go and Annotation.SetRectangle in
vision-api.go): a nil polygon yields the zero value of image.Rectangle;
otherwise the four coordinates are folded from the i32 sentinels over
all vertices with min/max. -/
def GetBoundingBox : Option (List Vertex) → Rectangle
  | none => ⟨0, 0, 0, 0⟩
  | some vs =>
    ⟨vs.foldl (fun m u => min m u.x) i32Maximal,
     vs.foldl (fun m u => min m u.y) i32Maximal,
     vs.foldl (fun m u => max m u.x) i32Minimal,
     vs.foldl (fun m u => max m u.y) i32Minimal⟩

/-- GetLayoutBoundingBox from document-ai.go; its body is line-for-line the
same algorithm as GetBoundingBox (only the protobuf polygon type differs). -/
def GetLayoutBoundingBox (b : Option (List Vertex)) : Rectangle :=
  GetBoundingBox b

/-- GetOrientation from the unnamed vision file (identical body to
GetLayoutOrientation in document-ai.go and Annotation.SetOrientation in
vision-api.go): 0 for a nil polygon or fewer than 3 vertices, otherwise a
four-way classification of vertex 0 against vertex 2. -/
def GetOrientation : Option (List Vertex) → Int
  | none => 0
  | some (v0 :: _ :: v2 :: _) =>
    if v0.x > v2.x then
      if v0.y > v2.y then 180 else 270
    else
      if v0.y > v2.y then 90 else 0
  | some _ => 0

/-- GetLayoutOrientation from document-ai.go; its body is line-for-line the
same algorithm as GetOrientation (only the protobuf polygon type differs). -/
def GetLayoutOrientation (b : Option (List Vertex)) : Int :=
  GetOrientation b

/-- Vertex coordinates produced by the backends are int32 values. -/
abbrev i32InRange (v : Vertex) : Prop :=
  i32Minimal ≤ v.x ∧ v.x ≤ i32Maximal ∧ i32Minimal ≤ v.y ∧ v.y ≤ i32Maximal

lemma foldl_min_le_start (f : Vertex → Int) (xs : List Vertex) :
    ∀ a : Int, xs.foldl (fun m u => min m (f u)) a ≤ a := by
  induction xs with
  | nil => intro a; simp
  | cons x t ih =>
    intro a
    simp only [List.foldl_cons]
    exact le_trans (ih (min a (f x))) (min_le_left _ _)

lemma foldl_min_le_elem (f : Vertex → Int) (xs : List Vertex) :
    ∀ (a : Int) (v : Vertex), v ∈ xs → xs.foldl (fun m u => min m (f u)) a ≤ f v := by
  induction xs with
  | nil => intro a v hv; cases hv
  | cons x t ih =>
    intro a v hv
    simp only [List.foldl_cons]
    rcases List.mem_cons.mp hv with h | h
    · subst h
      exact le_trans (foldl_min_le_start f t (min a (f v))) (min_le_right _ _)
    · exact ih (min a (f x)) v h

lemma foldl_min_cases (f : Vertex → Int) (xs : List Vertex) :
    ∀ a : Int, xs.foldl (fun m u => min m (f u)) a = a ∨
      ∃ v ∈ xs, xs.foldl (fun m u => min m (f u)) a = f v := by
  induction xs with
  | nil => intro a; left; rfl
  | cons x t ih =>
    intro a
    simp only [List.foldl_cons]
    rcases ih (min a (f x)) with h | ⟨v, hv, hev⟩
    · rw [h]
      rcases le_total a (f x) with hle | hle
      · left; exact min_eq_left hle
      · right; exact ⟨x, List.mem_cons_self x t, min_eq_right hle⟩
    · right; exact ⟨v, List.mem_cons_of_mem x hv, hev⟩

lemma foldl_max_start_le (f : Vertex → Int) (xs : List Vertex) :
    ∀ a : Int, a ≤ xs.foldl (fun m u => max m (f u)) a := by
  induction xs with
  | nil => intro a; simp
  | cons x t ih =>
    intro a
    simp only [List.foldl_cons]
    exact le_trans (le_max_left _ _) (ih (max a (f x)))

lemma foldl_max_elem_le (f : Vertex → Int) (xs : List Vertex) :
    ∀ (a : Int) (v : Vertex), v ∈ xs → f v ≤ xs.foldl (fun m u => max m (f u)) a := by
  induction xs with
  | nil => intro a v hv; cases hv
  | cons x t ih =>
    intro a v hv
    simp only [List.foldl_cons]
    rcases List.mem_cons.mp hv with h | h
    · subst h
      exact le_trans (le_max_right _ _) (foldl_max_start_le f t (max a (f v)))
    · exact ih (max a (f x)) v h

lemma foldl_max_cases (f : Vertex → Int) (xs : List Vertex) :
    ∀ a : Int, xs.foldl (fun m u => max m (f u)) a = a ∨
      ∃ v ∈ xs, xs.foldl (fun m u => max m (f u)) a = f v := by
  induction xs with
  | nil => intro a; left; rfl
  | cons x t ih =>
    intro a
    simp only [List.foldl_cons]
    rcases ih (max a (f x)) with h | ⟨v, hv, hev⟩
    · rw [h]
      rcases le_total a (f x) with hle | hle
      · right; exact ⟨x, List.mem_cons_self x t, max_eq_right hle⟩
      · left; exact max_eq_left hle
    · right; exact ⟨v, List.mem_cons_of_mem x hv, hev⟩

/-- C3 counterexample: the claim asserts that a present-but-empty (zero-vertex)
polygon also maps to the zero rectangle, but the code only special-cases nil;
for an empty vertex list the min/max folds never run and the i32 sentinels
MaxInt32/MinInt32 are returned as the rectangle. -/
theorem getBoundingBox_empty_claim_false :
    GetBoundingBox (some []) ≠ ⟨0, 0, 0, 0⟩ ∧
    GetLayoutBoundingBox (some []) ≠ ⟨0, 0, 0, 0⟩ := by
  decide

/-- C3 (amended): GetBoundingBox / GetLayoutBoundingBox return the zero
rectangle for an absent (nil) polygon; for a present-but-empty polygon they
return the sentinel rectangle (MaxInt32, MaxInt32, MinInt32, MinInt32). -/
theorem getBoundingBox_empty_amended :
    GetBoundingBox none = ⟨0, 0, 0, 0⟩ ∧
    GetLayoutBoundingBox none = ⟨0, 0, 0, 0⟩ ∧
    GetBoundingBox (some []) = ⟨2147483647, 2147483647, -2147483648, -2147483648⟩ ∧
    GetLayoutBoundingBox (some []) = ⟨2147483647, 2147483647, -2147483648, -2147483648⟩ := by
  decide

/-- C4: for every non-empty polygon whose vertex coordinates are int32 values
(as they are in the protobuf messages), GetBoundingBox returns exactly the
rectangle of the minimum/maximum vertex coordinates: each coordinate is a
bound attained by some vertex, minX ≤ maxX and minY ≤ maxY hold, and
GetLayoutBoundingBox agrees. -/
theorem getBoundingBox_minmax (vs : List Vertex) (hne : vs ≠ [])
    (hr : ∀ v ∈ vs, i32InRange v) :
    (∀ v ∈ vs,
      (GetBoundingBox (some vs)).minX ≤ v.x ∧ v.x ≤ (GetBoundingBox (some vs)).maxX ∧
      (GetBoundingBox (some vs)).minY ≤ v.y ∧ v.y ≤ (GetBoundingBox (some vs)).maxY) ∧
    (∃ v ∈ vs, (GetBoundingBox (some vs)).minX = v.x) ∧
    (∃ v ∈ vs, (GetBoundingBox (some vs)).maxX = v.x) ∧
    (∃ v ∈ vs, (GetBoundingBox (some vs)).minY = v.y) ∧
    (∃ v ∈ vs, (GetBoundingBox (some vs)).maxY = v.y) ∧
    (GetBoundingBox (some vs)).minX ≤ (GetBoundingBox (some vs)).maxX ∧
    (GetBoundingBox (some vs)).minY ≤ (GetBoundingBox (some vs)).maxY ∧
    GetLayoutBoundingBox (some vs) = GetBoundingBox (some vs) := by
  obtain ⟨v0, hv0⟩ := List.exists_mem_of_ne_nil vs hne
  have bx1 : ∀ v ∈ vs, (GetBoundingBox (some vs)).minX ≤ v.x := fun v hv =>
    foldl_min_le_elem (fun u => u.x) vs i32Maximal v hv
  have bx2 : ∀ v ∈ vs, v.x ≤ (GetBoundingBox (some vs)).maxX := fun v hv =>
    foldl_max_elem_le (fun u => u.x) vs i32Minimal v hv
  have by1 : ∀ v ∈ vs, (GetBoundingBox (some vs)).minY ≤ v.y := fun v hv =>
    foldl_min_le_elem (fun u => u.y) vs i32Maximal v hv
  have by2 : ∀ v ∈ vs, v.y ≤ (GetBoundingBox (some vs)).maxY := fun v hv =>
    foldl_max_elem_le (fun u => u.y) vs i32Minimal v hv
  refine ⟨fun v hv => ⟨bx1 v hv, bx2 v hv, by1 v hv, by2 v hv⟩,
    ?_, ?_, ?_, ?_, le_trans (bx1 v0 hv0) (bx2 v0 hv0),
    le_trans (by1 v0 hv0) (by2 v0 hv0), rfl⟩
  · rcases foldl_min_cases (fun u => u.x) vs i32Maximal with h | ⟨v, hv, hev⟩
    · have h1 := bx1 v0 hv0
      have h2 := (hr v0 hv0).2.1
      have h3 : (GetBoundingBox (some vs)).minX = i32Maximal := h
      exact ⟨v0, hv0, by omega⟩
    · exact ⟨v, hv, hev⟩
  · rcases foldl_max_cases (fun u => u.x) vs i32Minimal with h | ⟨v, hv, hev⟩
    · have h1 := bx2 v0 hv0
      have h2 := (hr v0 hv0).1
      have h3 : (GetBoundingBox (some vs)).maxX = i32Minimal := h
      exact ⟨v0, hv0, by omega⟩
    · exact ⟨v, hv, hev⟩
  · rcases foldl_min_cases (fun u => u.y) vs i32Maximal with h | ⟨v, hv, hev⟩
    · have h1 := by1 v0 hv0
      have h2 := (hr v0 hv0).2.2.2
      have h3 : (GetBoundingBox (some vs)).minY = i32Maximal := h
      exact ⟨v0, hv0, by omega⟩
    · exact ⟨v, hv, hev⟩
  · rcases foldl_max_cases (fun u => u.y) vs i32Minimal with h | ⟨v, hv, hev⟩
    · have h1 := by2 v0 hv0
      have h2 := (hr v0 hv0).2.2.1
      have h3 : (GetBoundingBox (some vs)).maxY = i32Minimal := h
      exact ⟨v0, hv0, by omega⟩
    · exact ⟨v, hv, hev⟩

/-- C4 witness at the two-vertex polygon [(1,2),(3,0)]. -/
theorem getBoundingBox_minmax_witness :
    ([⟨1, 2⟩, ⟨3, 0⟩] : List Vertex) ≠ [] ∧
    (GetBoundingBox (some [⟨1, 2⟩, ⟨3, 0⟩])).minX ≤ (GetBoundingBox (some [⟨1, 2⟩, ⟨3, 0⟩])).maxX ∧
    (GetBoundingBox (some [⟨1, 2⟩, ⟨3, 0⟩])).minY ≤ (GetBoundingBox (some [⟨1, 2⟩, ⟨3, 0⟩])).maxY ∧
    GetBoundingBox (some [⟨1, 2⟩, ⟨3, 0⟩]) = ⟨1, 0, 3, 2⟩ := by
  have h := getBoundingBox_minmax [⟨1, 2⟩, ⟨3, 0⟩] (by decide) (by decide)
  exact ⟨by decide, h.2.2.2.2.2.1, h.2.2.2.2.2.2.1, by decide⟩

/-- C5: the orientation functions return 0 on an absent polygon or one with
fewer than 3 vertices; otherwise they classify by the position of vertex 0
relative to vertex 2: 180 when x0 > x2 and y0 > y2, 270 when x0 > x2 and
y0 ≤ y2, 90 when x0 ≤ x2 and y0 > y2, 0 otherwise; GetLayoutOrientation
computes the same function. -/
theorem getOrientation_cases (b : Option (List Vertex)) :
    (b = none → GetOrientation b = 0) ∧
    (∀ vs, b = some vs → vs.length < 3 → GetOrientation b = 0) ∧
    (∀ v0 v1 v2 rest, b = some (v0 :: v1 :: v2 :: rest) →
      ((v0.x > v2.x ∧ v0.y > v2.y) → GetOrientation b = 180) ∧
      ((v0.x > v2.x ∧ v0.y ≤ v2.y) → GetOrientation b = 270) ∧
      ((v0.x ≤ v2.x ∧ v0.y > v2.y) → GetOrientation b = 90) ∧
      ((v0.x ≤ v2.x ∧ v0.y ≤ v2.y) → GetOrientation b = 0)) ∧
    (∀ p, GetLayoutOrientation p = GetOrientation p) := by
  refine ⟨?_, ?_, ?_, fun p => rfl⟩
  · rintro rfl; rfl
  · rintro vs rfl hlen
    match vs, hlen with
    | [], _ => rfl
    | [v], _ => rfl
    | [v, w], _ => rfl
    | v0 :: v1 :: v2 :: rest, h => simp at h; omega
  · rintro v0 v1 v2 rest rfl
    refine ⟨?_, ?_, ?_, ?_⟩ <;> rintro ⟨hx, hy⟩ <;>
      simp only [GetOrientation] <;> first
      | rw [if_pos hx, if_pos hy]
      | rw [if_pos hx, if_neg (by omega)]
      | rw [if_neg (by omega), if_pos hy]
      | rw [if_neg (by omega), if_neg (by omega)]

/-- C5 witness: vertex 0 = (10,5) strictly right of and below vertex 2 = (0,0)
gives orientation 180. -/
theorem getOrientation_cases_witness :
    GetOrientation (some [⟨10, 5⟩, ⟨0, 5⟩, ⟨0, 0⟩]) = 180 := by
  have h := (getOrientation_cases (some [⟨10, 5⟩, ⟨0, 5⟩, ⟨0, 0⟩])).2.2.1
    ⟨10, 5⟩ ⟨0, 5⟩ ⟨0, 0⟩ [] rfl
  exact h.1 (by decide)

/-- C9: for every input whatsoever (nil or any vertex list) the orientation
functions return one of 0, 90, 180, 270. -/
theorem getOrientation_range (b : Option (List Vertex)) :
    (GetOrientation b = 0 ∨ GetOrientation b = 90 ∨
     GetOrientation b = 180 ∨ GetOrientation b = 270) ∧
    (GetLayoutOrientation b = 0 ∨ GetLayoutOrientation b = 90 ∨
     GetLayoutOrientation b = 180 ∨ GetLayoutOrientation b = 270) := by
  have h : GetOrientation b = 0 ∨ GetOrientation b = 90 ∨
      GetOrientation b = 180 ∨ GetOrientation b = 270 := by
    match b with
    | none => left; rfl
    | some [] => left; rfl
    | some [v] => left; rfl
    | some [v, w] => left; rfl
    | some (v0 :: v1 :: v2 :: rest) =>
      simp only [GetOrientation]
      split_ifs <;> simp
  exact ⟨h, h⟩

/-- documentaipb.Document_TextAnchor_TextSegment: StartIndex and EndIndex are
int64 offsets into the document text, modelled as Int. -/
structure TextSegment where
  StartIndex : Int
  EndIndex : Int
deriving DecidableEq, Repr

/-- Go string slicing text[a:b]: defined (returning the bytes a..b-1) exactly
when 0 ≤ a ≤ b ≤ len(text); any other pair of indices panics, modelled as
none. -/
def goStringSlice (text : List Char) (a b : Int) : Option (List Char) :=
  if 0 ≤ a ∧ a ≤ b ∧ b ≤ (text.length : Int) then
    some ((text.drop a.toNat).take (b - a).toNat)
  else none

/-- GetTextFromSegments from document-ai.go: concatenates, over the segment
list in order, the slice text[StartIndex : EndIndex-1] of the document text;
none models the run-time panic of an out-of-range slice. -/
def GetTextFromSegments (textSegments : List TextSegment) (documentText : List Char) :
    Option (List Char) :=
  match textSegments with
  | [] => some []
  | s :: rest =>
    match goStringSlice documentText s.StartIndex (s.EndIndex - 1),
        GetTextFromSegments rest documentText with
    | some piece, some more => some (piece ++ more)
    | _, _ => none

/-- The slice text[StartIndex : EndIndex-1] is in range. -/
abbrev segValid (text : List Char) (s : TextSegment) : Prop :=
  0 ≤ s.StartIndex ∧ s.StartIndex ≤ s.EndIndex - 1 ∧
    s.EndIndex - 1 ≤ (text.length : Int)

/-- The characters of the document text from StartIndex (inclusive) to
EndIndex - 1 (exclusive). -/
def extractSeg (text : List Char) (s : TextSegment) : List Char :=
  (text.drop s.StartIndex.toNat).take (s.EndIndex - 1 - s.StartIndex).toNat

lemma getTextFromSegments_eq_foldr (text : List Char) (segs : List TextSegment)
    (h : ∀ s ∈ segs, segValid text s) :
    GetTextFromSegments segs text =
      some (segs.foldr (fun s acc => extractSeg text s ++ acc) []) := by
  induction segs with
  | nil => rfl
  | cons s rest ih =>
    have hs := h s (List.mem_cons_self s rest)
    have hrest := ih (fun t ht => h t (List.mem_cons_of_mem s ht))
    have hslice : goStringSlice text s.StartIndex (s.EndIndex - 1) =
        some (extractSeg text s) := by
      unfold goStringSlice
      rw [if_pos hs]
      rfl
    simp only [GetTextFromSegments, List.foldr_cons, hslice, hrest]

/-- C2: whenever every text-anchor segment is in range, the extracted
paragraph text of GetTextFromSegments is the concatenation, in segment order,
of the substrings of the document text from StartIndex (inclusive) to
EndIndex - 1 (exclusive). -/
theorem getTextFromSegments_spec (text : List Char) (segs : List TextSegment)
    (h : ∀ s ∈ segs, segValid text s) :
    GetTextFromSegments segs text =
      some (segs.foldr (fun s acc => extractSeg text s ++ acc) []) :=
  getTextFromSegments_eq_foldr text segs h

/-- C2 witness: document text "ABCDE" with anchor (0,3) extracts "AB". -/
theorem getTextFromSegments_spec_witness :
    (∀ s ∈ ([⟨0, 3⟩] : List TextSegment), segValid "ABCDE".toList s) ∧
    GetTextFromSegments [⟨0, 3⟩] "ABCDE".toList = some "AB".toList := by
  refine ⟨by decide, ?_⟩
  rw [getTextFromSegments_spec "ABCDE".toList [⟨0, 3⟩] (by decide)]
  decide

/-- C8: GetTextFromSegments is total on inputs whose segments all satisfy
0 ≤ StartIndex ≤ EndIndex - 1 ≤ length of the document text, and fails (the
slice is out of range) on concrete inputs violating that precondition:
EndIndex = 0, EndIndex - 1 beyond the text length, and
StartIndex > EndIndex - 1. -/
theorem getTextFromSegments_outOfRange :
    (∀ (text : List Char) (segs : List TextSegment),
      (∀ s ∈ segs, segValid text s) → (GetTextFromSegments segs text).isSome = true) ∧
    GetTextFromSegments [⟨0, 0⟩] "ABCDE".toList = none ∧
    GetTextFromSegments [⟨0, 7⟩] "ABCDE".toList = none ∧
    GetTextFromSegments [⟨3, 3⟩] "ABCDE".toList = none := by
  refine ⟨?_, by decide, by decide, by decide⟩
  intro text segs h
  rw [getTextFromSegments_eq_foldr text segs h]
  rfl

/-- C8 witness: the in-range anchor (1,3) on "ABCDE" yields a defined
result. -/
theorem getTextFromSegments_outOfRange_witness :
    (∀ s ∈ ([⟨1, 3⟩] : List TextSegment), segValid "ABCDE".toList s) ∧
    (GetTextFromSegments [⟨1, 3⟩] "ABCDE".toList).isSome = true :=
  ⟨by decide, getTextFromSegments_outOfRange.1 "ABCDE".toList [⟨1, 3⟩] (by decide)⟩

/-- The parts of the parsed net/url.URL structure that the endpoint
resolution functions read. -/
structure URL where
  Host : List Char
  Path : List Char
deriving DecidableEq, Repr

/-- strings.Index: the index of the first occurrence of sub in s, or -1 when
sub does not occur in s. -/
def stringIndex : List Char → List Char → Int
  | [], sub => if sub.isPrefixOf ([] : List Char) then 0 else -1
  | x :: rest, sub =>
    if sub.isPrefixOf (x :: rest) then 0
    else if stringIndex rest sub < 0 then -1 else stringIndex rest sub + 1

/-- GetHostName from document-ai.go: the endpoint URL host unchanged when it
contains a ":", otherwise the host with ":443" appended. -/
def GetHostName (endpoint : URL) : List Char :=
  if 0 ≤ stringIndex endpoint.Host [':'] then endpoint.Host
  else endpoint.Host ++ ":443".toList

/-- GetRequestName from document-ai.go: when "/projects/" occurs in the
endpoint URL path at first index i, the path from index i+1 on, truncated
before the first ":" when one occurs; otherwise the whole path. -/
def GetRequestName (endpoint : URL) : List Char :=
  let name := endpoint.Path
  if 0 ≤ stringIndex name "/projects/".toList then
    let name2 := name.drop ((stringIndex name "/projects/".toList).toNat + 1)
    if 0 ≤ stringIndex name2 [':'] then name2.take (stringIndex name2 [':']).toNat
    else name2
  else name

lemma stringIndex_first (s sub : List Char) :
    (stringIndex s sub < 0 ∧ ∀ i : Nat, ¬ sub.isPrefixOf (s.drop i)) ∨
    (0 ≤ stringIndex s sub ∧ sub.isPrefixOf (s.drop (stringIndex s sub).toNat) ∧
      ∀ j : Nat, j < (stringIndex s sub).toNat → ¬ sub.isPrefixOf (s.drop j)) := by
  induction s with
  | nil =>
    by_cases h : sub.isPrefixOf ([] : List Char)
    · right
      have h0 : stringIndex [] sub = 0 := by simp [stringIndex, h]
      rw [h0]
      exact ⟨le_refl 0, by simpa using h, by intro j hj; simp at hj⟩
    · left
      refine ⟨by simp [stringIndex, h], fun i => ?_⟩
      rw [List.drop_nil]
      exact h
  | cons x rest ih =>
    by_cases h : sub.isPrefixOf (x :: rest)
    · right
      have h0 : stringIndex (x :: rest) sub = 0 := by simp [stringIndex, h]
      rw [h0]
      exact ⟨le_refl 0, by simpa using h, by intro j hj; simp at hj⟩
    · rcases ih with ⟨hneg, hall⟩ | ⟨hge, hp, hmin⟩
      · left
        constructor
        · simp [stringIndex, h, hneg]
        · intro i
          cases i with
          | zero => simpa using h
          | succ i => simpa using hall i
      · right
        have hrw : stringIndex (x :: rest) sub = stringIndex rest sub + 1 := by
          have hnot : ¬ stringIndex rest sub < 0 := by omega
          simp [stringIndex, h, hnot]
        rw [hrw]
        have ht : (stringIndex rest sub + 1).toNat = (stringIndex rest sub).toNat + 1 := by
          omega
        refine ⟨by omega, ?_, ?_⟩
        · rw [ht]
          simpa using hp
        · intro j hj
          rw [ht] at hj
          cases j with
          | zero => simpa using h
          | succ j =>
            rw [List.drop_succ_cons]
            exact hmin j (by omega)

lemma stringIndex_nonneg_iff_mem (s : List Char) (c : Char) :
    0 ≤ stringIndex s [c] ↔ c ∈ s := by
  induction s with
  | nil => simp [stringIndex, List.isPrefixOf]
  | cons x rest ih =>
    by_cases h : c = x
    · subst h
      have hpre : ([c] : List Char).isPrefixOf (c :: rest) = true := by
        simp [List.isPrefixOf]
      simp [stringIndex, hpre]
    · have hp : ([c] : List Char).isPrefixOf (x :: rest) = false := by
        simp [List.isPrefixOf]
        exact fun hc => absurd hc h
      have heq : stringIndex (x :: rest) [c] =
          if stringIndex rest [c] < 0 then -1 else stringIndex rest [c] + 1 := by
        simp [stringIndex, hp]
      rw [heq, List.mem_cons]
      by_cases hneg : stringIndex rest [c] < 0
      · rw [if_pos hneg]
        constructor
        · intro habs; omega
        · rintro (rfl | hm)
          · exact absurd rfl h
          · have := ih.mpr hm; omega
      · rw [if_neg hneg]
        have h0 : 0 ≤ stringIndex rest [c] := by omega
        constructor
        · intro _; right; exact ih.mp h0
        · intro _; omega

lemma take_colon_eq_takeWhile (t : List Char) :
    (if 0 ≤ stringIndex t [':'] then t.take (stringIndex t [':']).toNat else t) =
      t.takeWhile (fun c => !(c == ':')) := by
  induction t with
  | nil =>
    have h0 : stringIndex [] [':'] = -1 := by simp [stringIndex, List.isPrefixOf]
    rw [h0]
    simp
  | cons x rest ih =>
    by_cases h : x = ':'
    · subst h
      have h0 : stringIndex (':' :: rest) [':'] = 0 := by simp [stringIndex, List.isPrefixOf]
      rw [h0]
      simp [List.takeWhile_cons]
    · have hp : ([':'] : List Char).isPrefixOf (x :: rest) = false := by
        simp [List.isPrefixOf]
        exact fun hc => absurd hc.symm h
      have heq : stringIndex (x :: rest) [':'] =
          if stringIndex rest [':'] < 0 then -1 else stringIndex rest [':'] + 1 := by
        simp [stringIndex, hp]
      have htw : (x :: rest).takeWhile (fun c => !(c == ':')) =
          x :: rest.takeWhile (fun c => !(c == ':')) := by
        simp [List.takeWhile_cons, h]
      rw [heq, htw]
      by_cases hneg : stringIndex rest [':'] < 0
      · have hni : ¬ (0 : Int) ≤ stringIndex rest [':'] := by omega
        have ih2 := ih
        rw [if_neg hni] at ih2
        rw [if_pos hneg, if_neg (show ¬ (0 : Int) ≤ -1 by norm_num)]
        exact congrArg (List.cons x) ih2
      · have h0 : (0 : Int) ≤ stringIndex rest [':'] := by omega
        have ih2 := ih
        rw [if_pos h0] at ih2
        rw [if_neg hneg, if_pos (show (0 : Int) ≤ stringIndex rest [':'] + 1 by omega)]
        have ht : (stringIndex rest [':'] + 1).toNat = (stringIndex rest [':']).toNat + 1 := by
          omega
        rw [ht, List.take_succ_cons]
        exact congrArg (List.cons x) ih2

/-- C6 counterexample: the claim requires the resource name to be the path
restricted to the substring beginning at "/projects/" (which at the input
below is "/projects/p" after the ":" truncation), but GetRequestName drops
the leading "/" (name = name[i+1:]) and returns "projects/p". -/
theorem getRequestName_claim_false :
    GetRequestName ⟨"example.com".toList, "/v1/projects/p:x".toList⟩ = "projects/p".toList ∧
    GetRequestName ⟨"example.com".toList, "/v1/projects/p:x".toList⟩ ≠ "/projects/p".toList := by
  decide

/-- C6 (amended): the network target is the endpoint URL host with ":443"
appended exactly when the host contains no ":" (the code's test for an
already-present port), and when "/projects/" first occurs at index n of the
endpoint URL path, the logical resource name is the path from index n + 1 on
(so it begins with "projects/", the leading "/" dropped), terminated before
the first ":" suffix. -/
theorem endpointResolution_amended (e : URL) :
    ((':' ∈ e.Host → GetHostName e = e.Host) ∧
     (':' ∉ e.Host → GetHostName e = e.Host ++ ":443".toList)) ∧
    (∀ n : Nat,
      ("/projects/".toList).isPrefixOf (e.Path.drop n) →
      (∀ j : Nat, j < n → ¬ ("/projects/".toList).isPrefixOf (e.Path.drop j)) →
      GetRequestName e = (e.Path.drop (n + 1)).takeWhile (fun c => !(c == ':'))) := by
  refine ⟨⟨?_, ?_⟩, ?_⟩
  · intro hc
    have h0 : 0 ≤ stringIndex e.Host [':'] := (stringIndex_nonneg_iff_mem _ _).mpr hc
    simp [GetHostName, h0]
  · intro hc
    have h0 : ¬ 0 ≤ stringIndex e.Host [':'] :=
      fun hx => hc ((stringIndex_nonneg_iff_mem _ _).mp hx)
    simp [GetHostName, h0]
  · intro n hpre hmin
    rcases stringIndex_first e.Path ("/projects/".toList) with ⟨hneg, hall⟩ | ⟨hge, hp, hm⟩
    · exact absurd hpre (hall n)
    · have hin : (stringIndex e.Path ("/projects/".toList)).toNat = n := by
        by_contra hne2
        rcases Nat.lt_or_ge (stringIndex e.Path ("/projects/".toList)).toNat n with hlt | hge2
        · exact hmin _ hlt hp
        · have hlt2 : n < (stringIndex e.Path ("/projects/".toList)).toNat := by omega
          exact hm n hlt2 hpre
      simp only [GetRequestName]
      rw [if_pos hge, hin]
      exact take_colon_eq_takeWhile (e.Path.drop (n + 1))

/-- C6 amended witness at the endpoint host "example.com" (no colon) and path
"/v1/projects/p:x" with "/projects/" first occurring at index 3. -/
theorem endpointResolution_amended_witness :
    GetHostName ⟨"example.com".toList, "/v1/projects/p:x".toList⟩ = "example.com:443".toList ∧
    GetRequestName ⟨"example.com".toList, "/v1/projects/p:x".toList⟩ = "projects/p".toList := by
  have h := endpointResolution_amended ⟨"example.com".toList, "/v1/projects/p:x".toList⟩
  constructor
  · have h1 := h.1.2 (by decide)
    rw [h1]
    decide
  · have h2 := h.2 3 (by decide) (by decide)
    rw [h2]
    decide

lemma no_occurrence_beyond (s sub : List Char) (hsub : sub ≠ [])
    (h : ∀ i : Nat, i < s.length → ¬ sub.isPrefixOf (s.drop i)) :
    ∀ i : Nat, ¬ sub.isPrefixOf (s.drop i) := by
  intro i
  by_cases hlt : i < s.length
  · exact h i hlt
  · have hd : s.drop i = [] := List.drop_eq_nil_of_le (by omega)
    rw [hd]
    cases sub with
    | nil => exact absurd rfl hsub
    | cons a t => simp [List.isPrefixOf]

/-- C10: when "/projects/" occurs nowhere in the endpoint URL path,
GetRequestName returns the whole path unchanged — no restriction and no ":"
truncation is applied. -/
theorem getRequestName_noProjects (e : URL)
    (h : ∀ i : Nat, ¬ ("/projects/".toList).isPrefixOf (e.Path.drop i)) :
    GetRequestName e = e.Path := by
  rcases stringIndex_first e.Path ("/projects/".toList) with ⟨hneg, _⟩ | ⟨hge, hp, _⟩
  · simp only [GetRequestName]
    rw [if_neg (by omega)]
  · exact absurd hp (h _)

/-- C10 witness: the path "/v1/stuff:x" contains no "/projects/" and is
returned unchanged, ":x" suffix included. -/
theorem getRequestName_noProjects_witness :
    GetRequestName ⟨"example.com".toList, "/v1/stuff:x".toList⟩ = "/v1/stuff:x".toList := by
  apply getRequestName_noProjects
  apply no_occurrence_beyond _ _ (by decide)
  decide

/-- The white-space class of Go's strings.TrimSpace (unicode.IsSpace):
0x09-0x0D, space, NEL, NBSP, ogham space and the Unicode space separators. -/
def goSpaceCodes : List Nat :=
  [9, 10, 11, 12, 13, 32, 133, 160, 5760, 8192, 8193, 8194, 8195, 8196, 8197,
   8198, 8199, 8200, 8201, 8202, 8232, 8233, 8239, 8287, 12288]

/-- unicode.IsSpace on a single character. -/
def goIsSpace (c : Char) : Bool :=
  goSpaceCodes.contains c.toNat

/-- strings.TrimSpace: remove leading and trailing white space. -/
def trimSpace (s : List Char) : List Char :=
  ((s.dropWhile goIsSpace).reverse.dropWhile goIsSpace).reverse

/-- The split performed by regexp.MustCompile of a carriage-return-optional
line feed followed by Split with limit -1: each "\r\n" or bare "\n" ends a
line. -/
def splitLines : List Char → List (List Char)
  | [] => [[]]
  | '\r' :: '\n' :: rest => [] :: splitLines rest
  | '\n' :: rest => [] :: splitLines rest
  | c :: rest =>
    match splitLines rest with
    | [] => [[c]]
    | l :: ls => (c :: l) :: ls

/-- The body of the loop in handleIgnoreFile (vision-api.go): trim each split
line and append it to the accumulator when non-empty. -/
def cleanGlobsStep (acc : List (List Char)) (g : List Char) : List (List Char) :=
  if 0 < (trimSpace g).length then acc ++ [trimSpace g] else acc

/-- handleIgnoreFile from vision-api.go: on a read failure, log and return the
empty list; otherwise split the contents on line breaks, trim each line and
keep the non-empty results in order. -/
def handleIgnoreFile (readResult : Except Unit (List Char)) : List (List Char) :=
  match readResult with
  | .error _ => []
  | .ok fileContents => (splitLines fileContents).foldl cleanGlobsStep []

/-- The outcome of os.Open on the ignore file as GetIgnoreList distinguishes
it: the file does not exist, opening fails for another reason, or the file is
opened and reading it yields a read result. -/
inductive OpenResult where
  | notExist : OpenResult
  | otherError : OpenResult
  | opened (readResult : Except Unit (List Char)) : OpenResult

/-- GetIgnoreList from vision-api.go: an absent ignore file yields the empty
list, any other open failure is logged and yields the empty list, and an
opened file is handed to handleIgnoreFile. -/
def GetIgnoreList : OpenResult → List (List Char)
  | .notExist => []
  | .otherError => []
  | .opened readResult => handleIgnoreFile readResult

lemma foldl_cleanGlobsStep (globs : List (List Char)) :
    ∀ acc : List (List Char),
      globs.foldl cleanGlobsStep acc =
        acc ++ (globs.map trimSpace).filter (fun t => decide (0 < t.length)) := by
  induction globs with
  | nil => intro acc; simp
  | cons g gs ih =>
    intro acc
    simp only [List.foldl_cons, List.map_cons, List.filter_cons]
    by_cases h : 0 < (trimSpace g).length
    · rw [show cleanGlobsStep acc g = acc ++ [trimSpace g] from if_pos h]
      rw [ih (acc ++ [trimSpace g])]
      simp [h]
    · rw [show cleanGlobsStep acc g = acc from if_neg h]
      rw [ih acc]
      simp [h]

/-- C7: the ignore-list loader never fails — a missing file and any other
open or read failure all yield the empty list — and for every readable
content it returns the lines obtained by splitting on line breaks, trimming
surrounding white space, and discarding the lines that become empty,
preserving their order and duplicates; on the spec's example content it
yields exactly the three patterns. -/
theorem getIgnoreList_spec :
    GetIgnoreList .notExist = [] ∧
    GetIgnoreList .otherError = [] ∧
    GetIgnoreList (.opened (.error ())) = [] ∧
    (∀ s : List Char,
      GetIgnoreList (.opened (.ok s)) =
        ((splitLines s).map trimSpace).filter (fun t => decide (0 < t.length))) ∧
    GetIgnoreList (.opened (.ok "  *.jpg \n\n*.bmp \n  ./examples/**".toList)) =
      ["*.jpg".toList, "*.bmp".toList, "./examples/**".toList] := by
  refine ⟨rfl, rfl, rfl, ?_, ?_⟩
  · intro s
    simp only [GetIgnoreList, handleIgnoreFile]
    rw [foldl_cleanGlobsStep]
    rfl
  · decide

/-- The environment-determined outcomes of the three fallible steps the
DetectImageText loop (image-ocr.go) performs for one collected file: the
recognition call (CallVisionAPI or CallDocumentAI, selected once per run),
the JSON serialization (GetFullJSON or GetCompactJSON, whose success carries
the serialized record), and the write of the serialized line to the output
stream (the w.Write of the JSON bytes and the w.WriteString of the newline,
taken together as the write of one line). -/
structure FileOutcome where
  recognize : Except Unit Unit
  marshal : Except Unit (List Char)
  writeLine : Except Unit Unit

/-- The run-scoped state of the DetectImageText loop: the error counter and
the lines written so far to the output stream. -/
structure BatchState where
  errorCount : Nat
  output : List (List Char)
deriving DecidableEq, Repr

/-- One iteration of the DetectImageText loop: each failing step logs,
increments the error counter and continues with the next file; when all
steps succeed the serialized record is appended to the output as one line. -/
def processFile (st : BatchState) (f : FileOutcome) : BatchState :=
  match f.recognize with
  | .error _ => ⟨st.errorCount + 1, st.output⟩
  | .ok _ =>
    match f.marshal with
    | .error _ => ⟨st.errorCount + 1, st.output⟩
    | .ok jsonData =>
      match f.writeLine with
      | .error _ => ⟨st.errorCount + 1, st.output⟩
      | .ok _ => ⟨st.errorCount, st.output ++ [jsonData]⟩

/-- DetectImageText from image-ocr.go, after the output file has been
created: iterate over the collected files in order threading the error
counter and the output stream, and return an error exactly when the error
counter ended up above zero. -/
def DetectImageText (files : List FileOutcome) : BatchState × Except String Unit :=
  let st := files.foldl processFile ⟨0, []⟩
  (st, if 0 < st.errorCount then Except.error "One or more OCR request failed"
       else Except.ok ())

/-- All three steps of one file succeeded. -/
def fileOk (f : FileOutcome) : Bool :=
  (match f.recognize with | .ok _ => true | .error _ => false) &&
  (match f.marshal with | .ok _ => true | .error _ => false) &&
  (match f.writeLine with | .ok _ => true | .error _ => false)

/-- The serialized record of a file whose serialization succeeded. -/
def lineOf (f : FileOutcome) : List Char :=
  match f.marshal with
  | .ok jsonData => jsonData
  | .error _ => []

/-- An Except value is an error. -/
def exceptIsError {ε α : Type} : Except ε α → Bool
  | .error _ => true
  | .ok _ => false

lemma processFile_of_ok (st : BatchState) (f : FileOutcome) (h : fileOk f = true) :
    processFile st f = ⟨st.errorCount, st.output ++ [lineOf f]⟩ := by
  rcases f with ⟨r, m, w⟩
  rcases r with _ | _ <;> rcases m with _ | j <;> rcases w with _ | _ <;>
    simp [fileOk] at h <;> rfl

lemma processFile_of_err (st : BatchState) (f : FileOutcome) (h : fileOk f = false) :
    processFile st f = ⟨st.errorCount + 1, st.output⟩ := by
  rcases f with ⟨r, m, w⟩
  rcases r with _ | _ <;> rcases m with _ | j <;> rcases w with _ | _ <;>
    first
    | rfl
    | simp [fileOk] at h

lemma foldl_processFile (files : List FileOutcome) :
    ∀ (c : Nat) (out : List (List Char)),
      files.foldl processFile ⟨c, out⟩ =
        ⟨c + (files.filter (fun f => !fileOk f)).length,
         out ++ (files.filter fileOk).map lineOf⟩ := by
  induction files with
  | nil => intro c out; simp
  | cons f fs ih =>
    intro c out
    simp only [List.foldl_cons, List.filter_cons]
    by_cases hf : fileOk f = true
    · rw [processFile_of_ok ⟨c, out⟩ f hf]
      rw [ih c (out ++ [lineOf f])]
      simp [hf]
    · have hf2 : fileOk f = false := by
        rcases Bool.dichotomy (fileOk f) with h | h
        · exact h
        · exact absurd h hf
      rw [processFile_of_err ⟨c, out⟩ f hf2]
      rw [ih (c + 1) out]
      simp [hf2]
      omega

/-- C1: over a non-empty ordered list of collected files, each per-file
failure of recognition, serialization or the line write increments the
run-scoped error counter and processing continues; the output holds exactly
one serialized line per fully successful file, in input order; the error
counter counts exactly the failing files; and DetectImageText returns an
error if and only if the counter is above zero after the full pass. -/
theorem detectImageText_spec (files : List FileOutcome) (hne : files ≠ []) :
    (DetectImageText files).1.output = (files.filter fileOk).map lineOf ∧
    (DetectImageText files).1.errorCount = (files.filter (fun f => !fileOk f)).length ∧
    (exceptIsError (DetectImageText files).2 = true ↔
      0 < (DetectImageText files).1.errorCount) := by
  have h := foldl_processFile files 0 []
  refine ⟨?_, ?_, ?_⟩
  · show (files.foldl processFile ⟨0, []⟩).output = _
    rw [h]
    simp
  · show (files.foldl processFile ⟨0, []⟩).errorCount = _
    rw [h]
    simp
  · show exceptIsError
      (if 0 < (files.foldl processFile ⟨0, []⟩).errorCount
       then Except.error "One or more OCR request failed" else Except.ok ()) = true ↔ _
    by_cases hc : 0 < (files.foldl processFile ⟨0, []⟩).errorCount
    · rw [if_pos hc]
      simpa [exceptIsError] using hc
    · rw [if_neg hc]
      simp only [exceptIsError]
      constructor
      · intro habs; cases habs
      · intro habs; exact absurd habs hc

/-- The spec's partial-failure scenario: three collected files where
recognition fails for the second only. -/
def demoFiles : List FileOutcome :=
  [⟨.ok (), .ok "a".toList, .ok ()⟩,
   ⟨.error (), .ok "b".toList, .ok ()⟩,
   ⟨.ok (), .ok "c".toList, .ok ()⟩]

/-- C1 witness on the spec's 3-file scenario: the output holds the lines of
files 1 and 3 in that order, the error count is 1, and the run reports
failure. -/
theorem detectImageText_spec_witness :
    demoFiles ≠ [] ∧
    (DetectImageText demoFiles).1.output = ["a".toList, "c".toList] ∧
    (DetectImageText demoFiles).1.errorCount = 1 ∧
    exceptIsError (DetectImageText demoFiles).2 = true := by
  have h := detectImageText_spec demoFiles (by simp [demoFiles])
  refine ⟨by simp [demoFiles], ?_, ?_, ?_⟩
  · rw [h.1]; decide
  · rw [h.2.1]; decide
  · exact (h.2.2).mpr (by rw [h.2.1]; decide)
